import Mathlib

/-!
Verification of `script_detector.py` against its design specification.

The module classifies short text tokens by writing script using a static
table of Unicode code-point ranges, with a bounded scan (at most
`sample_chars` significant characters per token), an in-memory
`token → language` cache persisted as a JSON snapshot, and a batch
annotator over data frames that classifies each distinct column value
once and broadcasts the result.

This file gives a shallow embedding of the module: strings are Lean
`String`s, code points are `Nat` (Python `ord`), the cache and the
counter dictionary are insertion-ordered association lists (mirroring
CPython dict semantics: updates keep position, new keys append, and
iteration follows insertion order), scores are `ℚ`, and the stateful
batch layer is modelled by explicit state passing together with an
event trace recording classifier invocations and snapshot writes.
-/

namespace ScriptDetect

/-- The Unicode block table `UNICODE_RANGES` of `script_detector.py`:
language code → list of (inclusive start, exclusive stop) code-point
intervals, in the source's declaration order. -/
def UNICODE_RANGES : List (String × List (Nat × Nat)) :=
  [("hi",  [(0x0900, 0x0980)]),
   ("gu",  [(0x0A80, 0x0B00)]),
   ("pa",  [(0x0A00, 0x0A80)]),
   ("bn",  [(0x0980, 0x0A00)]),
   ("or",  [(0x0B00, 0x0B80)]),
   ("tam", [(0x0B80, 0x0C00)]),
   ("te",  [(0x0C00, 0x0C80)]),
   ("kn",  [(0x0C80, 0x0D00)]),
   ("ml",  [(0x0D00, 0x0D80)]),
   ("ur",  [(0x0600, 0x0700), (0x0750, 0x0780)]),
   ("en",  [(0x0000, 0x0080), (0x0080, 0x0100)])]

/-- Membership in `_ASCII = set(map(ord, string.printable))`: the
ordinals of Python's `string.printable`, i.e. `{9,…,13} ∪ {32,…,126}`. -/
def asciiMem (cp : Nat) : Bool :=
  (9 ≤ cp && cp ≤ 13) || (32 ≤ cp && cp ≤ 126)

/-- Membership of a code point in a list of half-open intervals
(the per-language `range` objects of the table). -/
def inRanges (rs : List (Nat × Nat)) (cp : Nat) : Bool :=
  rs.any (fun r => r.1 ≤ cp && cp < r.2)

/-- The helper `_char_lang(cp)`: fast path returning `"en"` for
printable ASCII, otherwise the first table entry (in declaration
order) one of whose ranges contains `cp`; `none` if no range matches. -/
def char_lang (cp : Nat) : Option String :=
  if asciiMem cp then some "en"
  else (UNICODE_RANGES.find? (fun p => inRanges p.2 cp)).map Prod.fst

/-- The significance filter of `_iter_significant`: code points
`≤ 0x20` and the band `0x2000–0x200F` are skipped. -/
def isSignificant (cp : Nat) : Bool :=
  !(cp ≤ 0x20 || (0x2000 ≤ cp && cp ≤ 0x200F))

/-- The sequence yielded by `_iter_significant(text)` on a code-point list. -/
def significant (cps : List Nat) : List Nat :=
  cps.filter isSignificant

/-- Code points of a token, as Python iterates `ord(ch) for ch in text`. -/
def strCps (s : String) : List Nat :=
  s.toList.map Char.toNat

/-- One counter increment `counts[lang] = counts.get(lang, 0) + 1` on an
insertion-ordered association list: an existing key is updated in place,
a new key is appended (CPython dict semantics). -/
def bump (counts : List (String × Nat)) (l : String) : List (String × Nat) :=
  if counts.any (fun p => p.1 == l) then
    counts.map (fun p => if p.1 == l then (p.1, p.2 + 1) else p)
  else counts ++ [(l, 1)]

/-- The body of one iteration of the scan loop of `detect`: resolve the
code point and increment its language counter if resolved. -/
def bumpStep (counts : List (String × Nat)) (cp : Nat) : List (String × Nat) :=
  match char_lang cp with
  | some l => bump counts l
  | none => counts

/-- The scan loop of `detect`: for each significant code point increment
`total`, update the counters, and break once `total ≥ sample_chars`
(the check comes after the increments, as in the source). Returns the
final counters and `total`. -/
def scanLoop (N : Nat) : List Nat → List (String × Nat) → Nat → List (String × Nat) × Nat
  | [], counts, total => (counts, total)
  | cp :: rest, counts, total =>
    let counts' := bumpStep counts cp
    if N ≤ total + 1 then (counts', total + 1)
    else scanLoop N rest counts' (total + 1)

/-- One comparison step of Python's `max(counts, key=counts.get)`: the
running best is replaced only on a strictly greater value, so the first
key attaining the maximum in iteration (= insertion) order wins. -/
def maxStep (best q : String × Nat) : String × Nat :=
  if best.2 < q.2 then q else best

/-- Python's `max(counts, key=counts.get)` over the insertion-ordered
counter list; `none` exactly when the dict is empty (`if not counts`). -/
def pickWinner : List (String × Nat) → Option (String × Nat)
  | [] => none
  | p :: rest => some (rest.foldl maxStep p)

/-- Dictionary read `counts[k]` on the counter list (`0` if absent;
`detect` only reads keys that are present). -/
def dictGet (counts : List (String × Nat)) (k : String) : Nat :=
  ((counts.find? (fun p => p.1 == k)).map Prod.snd).getD 0

/-- Configuration of a `ScriptDetector` instance: the dataclass fields
`sample_chars`, `default_code` and `cache_file` (a `none` or empty path
is falsy in the `if self._dirty and self.cache_file` test). -/
structure Detector where
  sample_chars : Nat
  default_code : String
  cache_file : Option String

/-- Cache lookup `self._cache.get(text)` on the insertion-ordered cache. -/
def cacheGet (cache : List (String × String)) (t : String) : Option String :=
  (cache.find? (fun p => p.1 == t)).map Prod.snd

/-- The scan-and-vote part of `ScriptDetector.detect` (everything after
the cache short-circuit): run the bounded scan, return
`(default_code, 0.0)` if no counter was incremented, else the first
maximal language and `counts[winner] / total`. -/
def detectScan (N : Nat) (default_code : String) (text : String) : String × ℚ :=
  let r := scanLoop N (significant (strCps text)) [] 0
  match pickWinner r.1 with
  | none => (default_code, 0)
  | some p => (p.1, (dictGet r.1 p.1 : ℚ) / (r.2 : ℚ))

/-- `ScriptDetector.detect`: empty (or absent, which Python's
`if not text` treats identically) tokens return `(default_code, 0.0)`;
a cache hit with a truthy (non-empty) stored value returns it with
score `1.0`; otherwise the bounded scan decides. -/
def detect (d : Detector) (cache : List (String × String)) (text : String) : String × ℚ :=
  if text = "" then (d.default_code, 0)
  else
    match cacheGet cache text with
    | some c => if c = "" then detectScan d.sample_chars d.default_code text else (c, 1)
    | none => detectScan d.sample_chars d.default_code text

/-- Mutable state of a `ScriptDetector` instance: the in-memory cache
`_cache` and the `_dirty` flag. -/
structure DetState where
  cache : List (String × String)
  dirty : Bool

/-- Dictionary write `m[k] = v` on an insertion-ordered association
list: an existing key is updated in place, a new key is appended. -/
def insertAssoc (m : List (String × String)) (k v : String) : List (String × String) :=
  if m.any (fun p => p.1 == k) then
    m.map (fun p => if p.1 == k then (p.1, v) else p)
  else m ++ [(k, v)]

/-- `ScriptDetector._add_to_cache`: store the pair and set `_dirty`. -/
def addToCache (st : DetState) (phrase lang : String) : DetState :=
  { cache := insertAssoc st.cache phrase lang, dirty := true }

/-- Python truthiness of the `cache_file` field: a configured,
non-empty path. -/
def fileTruthy : Option String → Bool
  | none => false
  | some p => !(p == "")

/-- Observable events of the batch layer: one `classify` event per
`self.detect(val)` call made while processing column `col`, and one
`writeSnapshot` event (carrying the serialized mapping) per
`Path(...).write_text` in `_flush_cache`. -/
inductive Event where
  | classify (col : String) (val : String)
  | writeSnapshot (content : List (String × String))
deriving DecidableEq

/-- Whether an event is a persisted-snapshot write. -/
def Event.isWrite : Event → Bool
  | .writeSnapshot _ => true
  | _ => false

/-- `ScriptDetector._flush_cache`: if `_dirty` and `cache_file` is
truthy, write the whole mapping to the snapshot (one write event) and
clear `_dirty`; otherwise do nothing. -/
def flushCache (d : Detector) (st : DetState) : DetState × List Event :=
  if st.dirty && fileTruthy d.cache_file then
    ({ st with dirty := false }, [.writeSnapshot st.cache])
  else (st, [])

/-- A data frame, modelled as its ordered list of named columns. -/
abbrev Frame := List (String × List String)

/-- Column read `df[col].astype(str)` (cells are modelled as strings
already; reading a missing column raises `KeyError` in pandas, so the
theorems about `annotate_frame` assume the requested columns exist). -/
def getCol (df : Frame) (c : String) : List String :=
  ((df.find? (fun p => p.1 == c)).map Prod.snd).getD []

/-- Whether the frame has a column named `c`. -/
def hasCol (df : Frame) (c : String) : Bool :=
  df.any (fun p => p.1 == c)

/-- Column write `df[c] = cells`: overwrite an existing column in
place, or append a new one at the end. -/
def setCol (df : Frame) (c : String) (cells : List String) : Frame :=
  if df.any (fun p => p.1 == c) then
    df.map (fun p => if p.1 == c then (p.1, cells) else p)
  else df ++ [(c, cells)]

/-- Worker of `dedupFirst`, accumulating distinct values in
first-appearance order. -/
def dedupGo (acc : List String) : List String → List String
  | [] => acc
  | x :: xs => if acc.any (fun w => w == x) then dedupGo acc xs else dedupGo (acc ++ [x]) xs

/-- `pandas.Series.unique()`: the distinct values of a column in order
of first appearance. -/
def dedupFirst (l : List String) : List String :=
  dedupGo [] l

/-- Accumulator of the per-unique-value loop of `annotate_frame`:
the `lang_map` dict, the detector state, and the emitted events. -/
structure ColAcc where
  langMap : List (String × String)
  st : DetState
  events : List Event

/-- The body of `for val in uniques:` in `annotate_frame`: classify the
value against the current cache, record `lang_map[val] = lang`, and
auto-cache the pair when enabled and `score >= min_cache_score`. -/
def processVal (d : Detector) (auto_cache : Bool) (thr : ℚ) (c : String)
    (acc : ColAcc) (v : String) : ColAcc :=
  let r := detect d acc.st.cache v
  { langMap := insertAssoc acc.langMap v r.1
    st := if auto_cache && decide (thr ≤ r.2) then addToCache acc.st v r.1 else acc.st
    events := acc.events ++ [.classify c v] }

/-- The body of `for col in columns:` in `annotate_frame`: read the
column, classify each unique value once, and assign
`df[f"{col}_lang"] = ser.map(lang_map)` (every cell's value is a key of
`lang_map`, so the lookup never misses). -/
def processColumn (d : Detector) (auto_cache : Bool) (thr : ℚ)
    (acc : Frame × DetState × List Event) (c : String) : Frame × DetState × List Event :=
  let cells := getCol acc.1 c
  let r := (dedupFirst cells).foldl (processVal d auto_cache thr c) ⟨[], acc.2.1, []⟩
  (setCol acc.1 (c ++ "_lang") (cells.map (fun v => (cacheGet r.langMap v).getD "")),
   r.st, acc.2.2 ++ r.events)

/-- `ScriptDetector.annotate_frame`: process each requested column in
order, then — only if `auto_cache` was requested — flush the cache once.
Returns the resulting frame, the final detector state, and the event
trace of the call. -/
def annotate_frame (d : Detector) (df : Frame) (columns : List String)
    (auto_cache : Bool) (thr : ℚ) (st : DetState) : Frame × DetState × List Event :=
  let r := columns.foldl (processColumn d auto_cache thr) (df, st, [])
  if auto_cache then
    let f := flushCache d r.2.1
    (r.1, f.1, r.2.2 ++ f.2)
  else r

/-- An abstract insert/flush operation on the cache, for stating the
dirty-flag invariant. -/
inductive CacheOp where
  | ins (k v : String)
  | flush

/-- Whether an operation is an insert. -/
def CacheOp.isIns : CacheOp → Bool
  | .ins _ _ => true
  | .flush => false

/-- Apply one cache operation, extending the per-operation `wrote`
record (`true` exactly when the operation performed a snapshot write). -/
def applyOp (d : Detector) (acc : DetState × List Bool) : CacheOp → DetState × List Bool
  | .ins k v => (addToCache acc.1 k v, acc.2 ++ [false])
  | .flush =>
    let f := flushCache d acc.1
    (f.1, acc.2 ++ [!f.2.isEmpty])

/-- Run a sequence of cache operations from the post-construction state
(loaded cache `c0`, `_dirty = False`). -/
def runOps (d : Detector) (c0 : List (String × String)) (ops : List CacheOp) : DetState × List Bool :=
  ops.foldl (applyOp d) (⟨c0, false⟩, [])

/-- A minimal model of the JSON values `json.loads` can produce for a
snapshot document. -/
inductive PyJson where
  | obj (kvs : List (String × String))
  | arr (xs : List PyJson)
  | str (s : String)
  | num (n : Int)
  | jbool (b : Bool)
  | null

/-- The condition of the snapshot file at construction time. -/
inductive Snapshot where
  /-- No `cache_file` configured, or the path is not an existing file. -/
  | absent
  /-- The file's bytes do not decode as UTF-8 (`read_text` raises
  `UnicodeDecodeError`). -/
  | badBytes
  /-- The text is not valid JSON (`json.loads` raises
  `json.JSONDecodeError`). -/
  | badJson
  /-- The text decodes to the JSON value `v`. -/
  | json (v : PyJson)

/-- Modelled from the runtime semantics of CPython's
`dict.update(x)` applied to a decoded JSON value `x` (this call is in
`__post_init__`, whose behaviour on non-object values the source
inherits from the standard library): a JSON object merges its entries;
numbers, booleans and `null` are not iterable (`TypeError`); a
non-empty string yields length-1 elements (`ValueError`); an empty
string or empty array is an empty iterable (no-op).  A non-empty array
is left out of the model (`none`): its outcome depends on the shapes of
its elements. -/
def dictUpdate (m : List (String × String)) : PyJson → Option (Except Unit (List (String × String)))
  | .obj kvs => some (.ok (kvs.foldl (fun acc kv => insertAssoc acc kv.1 kv.2) m))
  | .num _ => some (.error ())
  | .jbool _ => some (.error ())
  | .null => some (.error ())
  | .str s => if s = "" then some (.ok m) else some (.error ())
  | .arr [] => some (.ok m)
  | .arr (_ :: _) => none

/-- `ScriptDetector.__post_init__`: starting from the empty in-memory
cache, load the snapshot if present.  Only `json.JSONDecodeError` is
caught (`except json.JSONDecodeError: pass`); any other exception —
`UnicodeDecodeError` from `read_text`, or `TypeError`/`ValueError`
from `dict.update` — propagates and construction fails (`.error`). -/
def postInit (snap : Snapshot) : Option (Except Unit (List (String × String))) :=
  match snap with
  | .absent => some (.ok [])
  | .badBytes => some (.error ())
  | .badJson => some (.ok [])
  | .json v => dictUpdate [] v

/-- Spec-side definition, following the specification's words for the
tie-break contract: the language achieving the maximal counter value
that comes first in the declaration order of the Range Table. -/
def specTableTieWinner (counts : List (String × Nat)) : Option String :=
  let m := (counts.map Prod.snd).foldl max 0
  (UNICODE_RANGES.map Prod.fst).find? (fun l => dictGet counts l == m)

/-- Spec-side definition, following the specification's words for a
well-formed snapshot: a JSON object mapping token strings to
language-code strings. -/
def WellFormedSnapshot : Snapshot → Prop :=
  fun snap => ∃ kvs : List (String × String), snap = .json (.obj kvs)

/-- Whether `cp` lies in one of the declared ranges of language `A`
(the specification's "characters in language A's declared code-point
ranges"; `false` for languages outside the table). -/
def inLangRanges (A : String) (cp : Nat) : Bool :=
  ((UNICODE_RANGES.find? (fun p => p.1 == A)).map (fun p => inRanges p.2 cp)).getD false

/-- Two table entries have disjoint range sets. -/
def RangesDisjoint (p q : String × List (Nat × Nat)) : Prop :=
  ∀ r ∈ p.2, ∀ s ∈ q.2, r.2 ≤ s.1 ∨ s.2 ≤ r.1

instance : DecidableRel RangesDisjoint := by
  intro p q
  unfold RangesDisjoint
  infer_instance

theorem inRanges_iff (rs : List (Nat × Nat)) (cp : Nat) :
    inRanges rs cp = true ↔ ∃ r ∈ rs, r.1 ≤ cp ∧ cp < r.2 := by
  simp [inRanges]

/-- The declared ranges of distinct table entries are pairwise disjoint. -/
theorem table_pairwise : UNICODE_RANGES.Pairwise RangesDisjoint := by decide

/-- Every table entry other than `"en"` has all its ranges above `0x600`. -/
theorem table_nonEn_high : ∀ p ∈ UNICODE_RANGES, p.1 = "en" ∨ ∀ r ∈ p.2, 0x600 ≤ r.1 := by
  decide

/-- In a table with pairwise-disjoint ranges, the first entry whose
ranges contain `cp` is the (unique) entry that contains it. -/
theorem find?_unique_match (t : List (String × List (Nat × Nat))) (A : String)
    (rs : List (Nat × Nat)) (cp : Nat) (hp : t.Pairwise RangesDisjoint)
    (hmem : (A, rs) ∈ t) (h : inRanges rs cp = true) :
    t.find? (fun p => inRanges p.2 cp) = some (A, rs) := by
  induction t with
  | nil => cases hmem
  | cons q rest ih =>
    rcases List.mem_cons.mp hmem with hq | hq
    · subst hq
      simp [List.find?_cons_of_pos, h]
    · have hdisj : RangesDisjoint q (A, rs) := (List.pairwise_cons.mp hp).1 _ hq
      have hqf : inRanges q.2 cp = false := by
        by_contra hc
        have hc' : inRanges q.2 cp = true := by
          cases hqt : inRanges q.2 cp
          · exact absurd hqt hc
          · rfl
        obtain ⟨r, hr, hr1, hr2⟩ := (inRanges_iff _ _).mp hc'
        obtain ⟨s, hs, hs1, hs2⟩ := (inRanges_iff _ _).mp h
        rcases hdisj r hr s hs with h1 | h1 <;> omega
      rw [List.find?_cons_of_neg _ (by simpa using hqf)]
      exact ih (List.pairwise_cons.mp hp).2 hq

/-- Resolution coherence: a significant code point lying in the declared
ranges of language `A` resolves to `A` (the ASCII fast path and the
first-match table walk agree with range membership, because the table's
ranges are pairwise disjoint and only `"en"` owns code points below
`0x600`). -/
theorem char_lang_of_inLang (A : String) (cp : Nat) (hsig : 0x20 < cp)
    (h : inLangRanges A cp = true) : char_lang cp = some A := by
  unfold inLangRanges at h
  cases hf : UNICODE_RANGES.find? (fun p => p.1 == A) with
  | none => rw [hf] at h; simp at h
  | some q =>
    rw [hf] at h
    simp only [Option.map_some', Option.getD_some] at h
    have hqA : q.1 = A := by
      have := List.find?_some hf
      simpa using this
    have hqmem : q ∈ UNICODE_RANGES := List.mem_of_find?_eq_some hf
    have hfind : UNICODE_RANGES.find? (fun p => inRanges p.2 cp) = some (q.1, q.2) :=
      find?_unique_match _ q.1 q.2 cp table_pairwise (by simpa using hqmem) h
    cases hA : asciiMem cp with
    | false =>
      rw [char_lang, if_neg (by simp [hA]), hfind]
      simp [hqA]
    | true =>
      have hcp : cp ≤ 126 := by
        rcases (by simpa [asciiMem] using hA : (9 ≤ cp ∧ cp ≤ 13) ∨ (32 ≤ cp ∧ cp ≤ 126)) with h1 | h1 <;> omega
      have : q.1 = "en" := by
        rcases table_nonEn_high q hqmem with he | hh
        · exact he
        · obtain ⟨s, hs, hs1, hs2⟩ := (inRanges_iff _ _).mp h
          have := hh s hs
          omega
      rw [char_lang, if_pos (by simp [hA]), ← hqA, this]

theorem scanLoop_eq (N : Nat) (l : List Nat) :
    ∀ (counts : List (String × Nat)) (total : Nat), total < N →
      scanLoop N l counts total =
        ((l.take (N - total)).foldl bumpStep counts, total + min (N - total) l.length) := by
  induction l with
  | nil => intro counts total h; simp [scanLoop]
  | cons cp rest ih =>
    intro counts total h
    rw [scanLoop]
    by_cases hN : N ≤ total + 1
    · rw [if_pos hN]
      have h1 : N - total = 1 := by omega
      rw [h1]
      simp only [List.take_succ_cons, List.take_zero, List.foldl_cons, List.foldl_nil,
        List.length_cons, Prod.mk.injEq, true_and, and_true]
      all_goals omega
    · rw [if_neg hN]
      rw [ih _ (total + 1) (by omega)]
      have h3 : N - total = (N - (total + 1)) + 1 := by omega
      rw [h3]
      simp only [List.take_succ_cons, List.foldl_cons, List.length_cons, Prod.mk.injEq,
        true_and, and_true]
      all_goals omega

theorem scanLoop_unresolved (N : Nat) (l : List Nat)
    (h : ∀ cp ∈ l, char_lang cp = none) :
    ∀ counts total, (scanLoop N l counts total).1 = counts := by
  induction l with
  | nil => intro counts total; rfl
  | cons cp rest ih =>
    intro counts total
    have hcp : char_lang cp = none := h cp (by simp)
    rw [scanLoop]
    have hstep : bumpStep counts cp = counts := by simp [bumpStep, hcp]
    by_cases hN : N ≤ total + 1
    · rw [if_pos hN, hstep]
    · rw [if_neg hN, hstep]
      exact ih (fun c hc => h c (by simp [hc])) counts (total + 1)

theorem bump_single (A : String) (k : Nat) : bump [(A, k)] A = [(A, k + 1)] := by
  simp [bump]

theorem bump_two_second (A B : String) (m k : Nat) (h : A ≠ B) :
    bump [(A, m), (B, k)] B = [(A, m), (B, k + 1)] := by
  simp [bump, h]

theorem bump_new_after_one (A B : String) (m : Nat) (h : A ≠ B) :
    bump [(A, m)] B = [(A, m), (B, 1)] := by
  simp [bump, h]

theorem foldl_bumpStep_const (A : String) (u : List Nat)
    (h : ∀ cp ∈ u, char_lang cp = some A) :
    ∀ k, u.foldl bumpStep [(A, k)] = [(A, k + u.length)] := by
  induction u with
  | nil => intro k; simp
  | cons cp rest ih =>
    intro k
    have hcp : char_lang cp = some A := h cp (by simp)
    simp only [List.foldl_cons]
    rw [show bumpStep [(A, k)] cp = [(A, k + 1)] by simp [bumpStep, hcp, bump_single]]
    rw [ih (fun c hc => h c (by simp [hc])) (k + 1)]
    simp only [List.length_cons, List.cons.injEq, Prod.mk.injEq, true_and, and_true]
    all_goals omega

theorem foldl_bumpStep_nil_const (A : String) (u : List Nat)
    (h : ∀ cp ∈ u, char_lang cp = some A) (hne : u ≠ []) :
    u.foldl bumpStep [] = [(A, u.length)] := by
  cases u with
  | nil => exact absurd rfl hne
  | cons cp rest =>
    have hcp : char_lang cp = some A := h cp (by simp)
    simp only [List.foldl_cons]
    rw [show bumpStep [] cp = [(A, 1)] by simp [bumpStep, hcp, bump]]
    rw [foldl_bumpStep_const A rest (fun c hc => h c (by simp [hc])) 1]
    simp only [List.length_cons, List.cons.injEq, Prod.mk.injEq, true_and, and_true]
    all_goals omega

theorem foldl_bumpStep_second (A B : String) (hAB : A ≠ B) (v : List Nat)
    (h : ∀ cp ∈ v, char_lang cp = some B) :
    ∀ m k, v.foldl bumpStep [(A, m), (B, k)] = [(A, m), (B, k + v.length)] := by
  induction v with
  | nil => intro m k; simp
  | cons cp rest ih =>
    intro m k
    have hcp : char_lang cp = some B := h cp (by simp)
    simp only [List.foldl_cons]
    rw [show bumpStep [(A, m), (B, k)] cp = [(A, m), (B, k + 1)] by
      simp [bumpStep, hcp, bump_two_second A B m k hAB]]
    rw [ih (fun c hc => h c (by simp [hc])) m (k + 1)]
    simp only [List.length_cons, List.cons.injEq, Prod.mk.injEq, true_and, and_true]
    all_goals omega

theorem foldl_bumpStep_mix (A B : String) (hAB : A ≠ B) (v : List Nat)
    (h : ∀ cp ∈ v, char_lang cp = some B) (hne : v ≠ []) (m : Nat) :
    v.foldl bumpStep [(A, m)] = [(A, m), (B, v.length)] := by
  cases v with
  | nil => exact absurd rfl hne
  | cons cp rest =>
    have hcp : char_lang cp = some B := h cp (by simp)
    simp only [List.foldl_cons]
    rw [show bumpStep [(A, m)] cp = [(A, m), (B, 1)] by
      simp [bumpStep, hcp, bump_new_after_one A B m hAB]]
    rw [foldl_bumpStep_second A B hAB rest (fun c hc => h c (by simp [hc])) m 1]
    simp only [List.length_cons, List.cons.injEq, Prod.mk.injEq, true_and, and_true]
    all_goals omega

theorem pickWinner_pair_left (A B : String) (n m : Nat) (h : ¬ n < m) :
    pickWinner [(A, n), (B, m)] = some (A, n) := by
  simp [pickWinner, maxStep, h]

theorem dictGet_head (A : String) (n : Nat) (rest : List (String × Nat)) :
    dictGet ((A, n) :: rest) A = n := by
  simp [dictGet]

theorem detect_scan (d : Detector) (cache : List (String × String)) (text : String)
    (h1 : text ≠ "") (h2 : cacheGet cache text = none) :
    detect d cache text = detectScan d.sample_chars d.default_code text := by
  simp [detect, h1, h2]

theorem significant_all (cps : List Nat) (h : ∀ cp ∈ cps, isSignificant cp = true) :
    significant cps = cps :=
  List.filter_eq_self.mpr h

theorem isSignificant_gt (cp : Nat) (h : isSignificant cp = true) : 0x20 < cp := by
  simp [isSignificant] at h
  omega

theorem mem_significant (cp : Nat) (cps : List Nat) (h : cp ∈ significant cps) :
    isSignificant cp = true :=
  List.of_mem_filter h

theorem strCps_ne_nil (text : String) (h : text ≠ "") : strCps text ≠ [] := by
  intro hc
  apply h
  cases text with
  | mk data =>
    have hd : data = [] := by simpa [strCps, String.toList] using hc
    subst hd
    rfl

theorem strCps_length (s : String) : (strCps s).length = s.length := by
  rw [strCps, List.length_map]
  rfl

/-- Evaluation helper: a concrete run of `detectScan`, with the
integer-valued scan results supplied as hypotheses so that only the
final score division is left to rational arithmetic. -/
theorem detectScan_eval (N : Nat) (dc text : String) (counts : List (String × Nat))
    (t : Nat) (p : String × Nat) (q : ℚ)
    (hs : scanLoop N (significant (strCps text)) [] 0 = (counts, t))
    (hw : pickWinner counts = some p)
    (hq : (dictGet counts p.1 : ℚ) / (t : ℚ) = q) :
    detectScan N dc text = (p.1, q) := by
  simp only [detectScan, hs, hw, hq]

/-- C2 counterexample: the token `"123"` consists only of ASCII digits,
which the specification's example treats as having zero resolvable
characters, yet `detect` resolves digits to `"en"` through the printable
ASCII fast path and returns score `1.0`, not `(default_code, 0.0)`. -/
theorem digits_resolve_to_en :
    detect ⟨6, "en", none⟩ [] "123" = ("en", 1) ∧
    detect ⟨6, "en", none⟩ [] "123" ≠ ("en", 0) := by
  have h : detect ⟨6, "en", none⟩ [] "123" = ("en", 1) := by
    rw [detect_scan ⟨6, "en", none⟩ [] "123" (by decide) (by decide)]
    refine detectScan_eval 6 "en" "123" [("en", 3)] 3 ("en", 3) 1 (by decide) (by decide) ?_
    rw [show dictGet [("en", 3)] ("en", 3).1 = 3 from by decide]
    norm_num
  refine ⟨h, ?_⟩
  rw [h]
  intro hc
  have h0 : (1 : ℚ) = 0 := congrArg Prod.snd hc
  norm_num at h0

/-- C2 (amended): a non-empty, non-cached token none of whose significant
characters resolves to any language yields `(default_code, 0.0)`.
(Digit or punctuation tokens are not of this kind: printable ASCII
resolves to `"en"`.) -/
theorem detect_unresolvable (d : Detector) (cache : List (String × String)) (text : String)
    (h1 : text ≠ "") (h2 : cacheGet cache text = none)
    (h3 : ∀ cp ∈ significant (strCps text), char_lang cp = none) :
    detect d cache text = (d.default_code, 0) := by
  rw [detect_scan d cache text h1 h2]
  have hc := scanLoop_unresolved d.sample_chars _ h3 [] 0
  simp only [detectScan, hc, pickWinner]

/-- C2 witness: the Cyrillic letter `"Ж"` lies outside printable ASCII
and outside every declared range, so the scan resolves nothing. -/
theorem detect_unresolvable_witness :
    ("Ж" ≠ "" ∧ (∀ cp ∈ significant (strCps "Ж"), char_lang cp = none)) ∧
    detect ⟨6, "en", none⟩ [] "Ж" = ("en", 0) :=
  ⟨⟨by decide, by decide⟩,
   detect_unresolvable ⟨6, "en", none⟩ [] "Ж" (by decide) (by decide) (by decide)⟩

/-- C5: a cache hit with a stored language code returns it with score
`1.0`, whatever characters the token contains. -/
theorem detect_cached (d : Detector) (cache : List (String × String)) (text L : String)
    (h1 : text ≠ "") (h2 : cacheGet cache text = some L)
    (h3 : L ∈ UNICODE_RANGES.map Prod.fst) :
    detect d cache text = (L, 1) := by
  have hL : L ≠ "" := by
    intro he
    subst he
    revert h3
    decide
  simp [detect, h1, h2, hL]

/-- C5 witness: the all-digit token `"123"` is cached as `"hi"` and the
cache short-circuit returns `("hi", 1.0)` without scanning. -/
theorem detect_cached_witness :
    cacheGet [("123", "hi")] "123" = some "hi" ∧
    detect ⟨6, "en", none⟩ [("123", "hi")] "123" = ("hi", 1) :=
  ⟨by decide,
   detect_cached ⟨6, "en", none⟩ [("123", "hi")] "123" "hi" (by decide) (by decide) (by decide)⟩

/-- C4: when the first `sample_chars` significant characters all lie in
language `A`'s ranges, the scan stops there and later characters (here:
all in `B`'s ranges) receive no count — the result is `(A, 1.0)`
independent of the token's total length. -/
theorem detect_bounded_scan (d : Detector) (cache : List (String × String)) (text : String)
    (A B : String) (u v : List Nat)
    (h1 : text ≠ "") (h2 : cacheGet cache text = none)
    (hsig : significant (strCps text) = u ++ v)
    (hu : u.length = d.sample_chars) (hN : 1 ≤ d.sample_chars) (_hv : v ≠ [])
    (hA : ∀ cp ∈ u, inLangRanges A cp = true)
    (_hB : ∀ cp ∈ v, inLangRanges B cp = true) :
    detect d cache text = (A, 1) := by
  have hA' : ∀ cp ∈ u, char_lang cp = some A := by
    intro cp hc
    have hmem : cp ∈ significant (strCps text) := by
      rw [hsig]; exact List.mem_append_left v hc
    exact char_lang_of_inLang A cp (isSignificant_gt cp (mem_significant cp _ hmem)) (hA cp hc)
  rw [detect_scan d cache text h1 h2]
  have hN0 : (0 : Nat) < d.sample_chars := hN
  simp only [detectScan, hsig]
  rw [scanLoop_eq d.sample_chars (u ++ v) [] 0 hN0]
  have htake : (u ++ v).take (d.sample_chars - 0) = u := by
    rw [Nat.sub_zero, ← hu]
    exact List.take_left u v
  have hune : u ≠ [] := by
    intro hc; rw [hc] at hu; simp at hu; omega
  rw [htake, foldl_bumpStep_nil_const A u hA' hune]
  have hmin : min (d.sample_chars - 0) (u ++ v).length = d.sample_chars := by
    simp [List.length_append, hu]
  rw [hmin]
  simp only [pickWinner, List.foldl_nil, dictGet_head, hu]
  have hne : ((d.sample_chars : ℚ)) ≠ 0 := by
    exact_mod_cast Nat.pos_iff_ne_zero.mp hN0
  simp [div_self hne]

/-- C4 witness: with `sample_chars = 6`, the token `"abcdefकखग"` has its
first six significant characters in `"en"`'s ranges and its remaining
Devanagari characters beyond the scan bound; the result is `("en", 1.0)`. -/
theorem detect_bounded_scan_witness :
    significant (strCps "abcdefकखग") = [97, 98, 99, 100, 101, 102] ++ [0x915, 0x916, 0x917] ∧
    detect ⟨6, "en", none⟩ [] "abcdefकखग" = ("en", 1) :=
  ⟨by decide,
   detect_bounded_scan ⟨6, "en", none⟩ [] "abcdefकखग" "en" "hi"
     [97, 98, 99, 100, 101, 102] [0x915, 0x916, 0x917]
     (by decide) (by decide) (by decide) (by decide) (by decide) (by decide)
     (by decide) (by decide)⟩

/-- C1 counterexample: on `"abcकखग"` (3 ASCII then 3 Devanagari
significant characters) the counters tie at 3, the language first in
table-declared order among the tied ones is `"hi"`, yet `detect` returns
`"en"` — the winner is decided by counter-insertion order (first
occurrence in the token), not by Range-Table declaration order. -/
theorem tie_break_not_table_order :
    (detect ⟨6, "en", none⟩ [] "abcकखग").1 = "en" ∧
    specTableTieWinner (scanLoop 6 (significant (strCps "abcकखग")) [] 0).1 = some "hi" ∧
    ("en" : String) ≠ "hi" := by
  have h : detect ⟨6, "en", none⟩ [] "abcकखग" = ("en", 1/2) := by
    rw [detect_scan ⟨6, "en", none⟩ [] "abcकखग" (by decide) (by decide)]
    refine detectScan_eval 6 "en" "abcकखग" [("en", 3), ("hi", 3)] 6 ("en", 3) (1/2)
      (by decide) (by decide) ?_
    rw [show dictGet [("en", 3), ("hi", 3)] ("en", 3).1 = 3 from by decide]
    norm_num
  exact ⟨by rw [h], by decide, by decide⟩

/-- C6 counterexample: the token `"\x01"` has length `1 ≤ N` and consists
entirely of characters inside `"en"`'s declared range `0x0000–0x0080`,
yet `detect` returns score `0.0`, not `1.0`: the control character is
skipped as insignificant, so nothing is scanned. -/
theorem in_range_token_score_zero :
    ("\x01" ≠ "" ∧ "\x01".length ≤ 6 ∧ (∀ cp ∈ strCps "\x01", inLangRanges "en" cp = true)) ∧
    detect ⟨6, "en", none⟩ [] "\x01" = ("en", 0) ∧
    detect ⟨6, "en", none⟩ [] "\x01" ≠ ("en", 1) := by
  have h : detect ⟨6, "en", none⟩ [] "\x01" = ("en", 0) := by
    rw [detect_scan ⟨6, "en", none⟩ [] "\x01" (by decide) (by decide)]
    have hs : scanLoop 6 (significant (strCps "\x01")) [] 0 = ([], 0) := by decide
    simp only [detectScan, hs, pickWinner]
  refine ⟨⟨by decide, by decide, by decide⟩, h, ?_⟩
  rw [h]
  intro hc
  have h0 : (0 : ℚ) = 1 := congrArg Prod.snd hc
  norm_num at h0

/-- C6 (amended): a non-empty, non-cached token of length at most
`sample_chars`, all of whose characters are significant and lie in
language `L`'s declared ranges, classifies as `(L, 1.0)`. -/
theorem detect_homogeneous (d : Detector) (cache : List (String × String)) (text L : String)
    (h1 : text ≠ "") (h2 : cacheGet cache text = none)
    (hlen : text.length ≤ d.sample_chars)
    (hsig : ∀ cp ∈ strCps text, isSignificant cp = true)
    (hL : ∀ cp ∈ strCps text, inLangRanges L cp = true) :
    detect d cache text = (L, 1) := by
  have hcps : strCps text ≠ [] := strCps_ne_nil text h1
  have hlen' : (strCps text).length ≤ d.sample_chars := by rw [strCps_length]; exact hlen
  have hN : 0 < d.sample_chars := lt_of_lt_of_le (List.length_pos.mpr hcps) hlen'
  have hL' : ∀ cp ∈ strCps text, char_lang cp = some L := fun cp hc =>
    char_lang_of_inLang L cp (isSignificant_gt cp (hsig cp hc)) (hL cp hc)
  rw [detect_scan d cache text h1 h2]
  refine detectScan_eval d.sample_chars d.default_code text [(L, (strCps text).length)]
    ((strCps text).length) (L, (strCps text).length) 1 ?_ ?_ ?_
  · rw [significant_all _ hsig, scanLoop_eq _ _ [] 0 hN, Nat.sub_zero,
      List.take_of_length_le hlen', foldl_bumpStep_nil_const L _ hL' hcps,
      min_eq_right hlen']
    simp
  · rfl
  · rw [show ((L, (strCps text).length) : String × Nat).1 = L from rfl, dictGet_head]
    have hne : ((strCps text).length : ℚ) ≠ 0 := by
      exact_mod_cast (List.length_pos.mpr hcps).ne'
    exact div_self hne

/-- C6 witness: the specification's own example `"Ramesh"` — six
significant ASCII characters, all in `"en"`'s ranges — yields
`("en", 1.0)`. -/
theorem detect_homogeneous_witness :
    ("Ramesh" ≠ "" ∧ "Ramesh".length ≤ 6) ∧
    detect ⟨6, "en", none⟩ [] "Ramesh" = ("en", 1) :=
  ⟨⟨by decide, by decide⟩,
   detect_homogeneous ⟨6, "en", none⟩ [] "Ramesh" "en" (by decide) (by decide) (by decide)
     (by decide) (by decide)⟩

/-- C3 counterexample: a snapshot whose content is the bare JSON number
`5` is malformed (it is no token→language object), yet construction does
not treat it as absent: `json.loads` succeeds and `dict.update(5)`
raises an uncaught `TypeError`, so `__post_init__` propagates an error. -/
theorem bare_number_snapshot_fails :
    (¬ WellFormedSnapshot (.json (.num 5)) ∧ Snapshot.json (.num 5) ≠ .absent) ∧
    postInit (.json (.num 5)) = some (.error ()) := by
  refine ⟨⟨?_, ?_⟩, rfl⟩
  · rintro ⟨kvs, h⟩
    simp [WellFormedSnapshot] at h
  · intro h
    exact Snapshot.noConfusion h

/-- C3 (amended): construction tolerates exactly the snapshots whose
text fails JSON decoding (`JSONDecodeError` is the only caught
exception) — those start with an empty cache like an absent snapshot;
but undecodable bytes, and decoded JSON values that `dict.update`
rejects (numbers, booleans, `null`, non-empty strings), propagate an
uncaught error out of construction. -/
theorem postInit_tolerance_policy :
    postInit .badJson = some (.ok []) ∧
    postInit .absent = some (.ok []) ∧
    postInit .badBytes = some (.error ()) ∧
    (∀ n : Int, postInit (.json (.num n)) = some (.error ())) ∧
    (∀ b : Bool, postInit (.json (.jbool b)) = some (.error ())) ∧
    postInit (.json .null) = some (.error ()) ∧
    (∀ s : String, s ≠ "" → postInit (.json (.str s)) = some (.error ())) := by
  refine ⟨rfl, rfl, rfl, fun n => rfl, fun b => rfl, rfl, fun s hs => ?_⟩
  simp [postInit, dictUpdate, hs]

/-- C3 witness: concrete instances of the amended tolerance policy — a
JSON-decode failure is tolerated, the non-empty JSON string `"x"` is
not. -/
theorem postInit_tolerance_policy_witness :
    ("x" ≠ "" ∧ postInit (.json (.str "x")) = some (.error ())) ∧
    postInit .badJson = some (.ok []) :=
  ⟨⟨by decide, postInit_tolerance_policy.2.2.2.2.2.2 "x" (by decide)⟩,
   postInit_tolerance_policy.1⟩

theorem getCol_setCol_ne (df : Frame) (c name : String) (cells : List String)
    (h : name ≠ c) : getCol (setCol df c cells) name = getCol df name := by
  unfold setCol getCol
  by_cases hx : df.any (fun p => p.1 == c)
  · rw [if_pos hx, List.find?_map]
    have hcomp : ((fun p : String × List String => p.1 == name) ∘
        fun p => if p.1 == c then (p.1, cells) else p)
        = fun p : String × List String => p.1 == name := by
      funext q
      by_cases hq : q.1 == c <;> simp [Function.comp, hq]
    rw [hcomp]
    cases hf : df.find? (fun p => p.1 == name) with
    | none => simp
    | some q =>
      have hqname : q.1 = name := by simpa using List.find?_some hf
      have hqc : (if q.1 = c then (q.1, cells) else q) = q := by
        rw [if_neg]
        rw [hqname]
        exact h
      simp [hqc]
  · rw [if_neg hx, List.find?_append]
    have hone : List.find? (fun p => p.1 == name) [(c, cells)] = none := by
      have hcn : ((c == name) : Bool) = false := by
        rw [beq_eq_false_iff_ne]
        exact Ne.symm h
      simp [List.find?, hcn]
    rw [hone]
    simp

theorem getCol_setCol_self (df : Frame) (c : String) (cells : List String) :
    getCol (setCol df c cells) c = cells := by
  unfold setCol getCol
  by_cases hx : df.any (fun p => p.1 == c)
  · rw [if_pos hx, List.find?_map]
    obtain ⟨q, hqmem, hq⟩ := List.any_eq_true.mp hx
    have hfind : ∃ r, df.find? (fun p => p.1 == c) = some r := by
      cases hf : df.find? (fun p => p.1 == c) with
      | none =>
        have := List.find?_eq_none.mp hf q hqmem
        exact absurd hq this
      | some r => exact ⟨r, rfl⟩
    obtain ⟨r, hr⟩ := hfind
    have hrc : r.1 = c := by simpa using List.find?_some hr
    have hcomp : ((fun p : String × List String => p.1 == c) ∘
        fun p => if p.1 == c then (p.1, cells) else p)
        = fun p : String × List String => p.1 == c := by
      funext s
      by_cases hs : s.1 == c <;> simp [Function.comp, hs]
    rw [hcomp, hr]
    simp [hrc]
  · rw [if_neg hx, List.find?_append]
    have hdf : df.find? (fun p => p.1 == c) = none := by
      rw [List.find?_eq_none]
      intro q hq hqc
      exact absurd (List.any_eq_true.mpr ⟨q, hq, hqc⟩) hx
    rw [hdf]
    simp [List.find?]

theorem hasCol_setCol_self (df : Frame) (c : String) (cells : List String) :
    hasCol (setCol df c cells) c = true := by
  unfold setCol hasCol
  by_cases hx : df.any (fun p => p.1 == c)
  · rw [if_pos hx]
    obtain ⟨q, hqmem, hq⟩ := List.any_eq_true.mp hx
    refine List.any_eq_true.mpr ⟨(q.1, cells), ?_, ?_⟩
    · refine List.mem_map.mpr ⟨q, hqmem, ?_⟩
      simp [hq]
    · simpa using hq
  · rw [if_neg hx]
    refine List.any_eq_true.mpr ⟨(c, cells), ?_, ?_⟩
    · simp
    · simp

theorem hasCol_setCol_mono (df : Frame) (c name : String) (cells : List String)
    (h : hasCol df name = true) : hasCol (setCol df c cells) name = true := by
  by_cases hnc : name = c
  · subst hnc
    exact hasCol_setCol_self df name cells
  · unfold setCol hasCol
    obtain ⟨q, hqmem, hq⟩ := List.any_eq_true.mp h
    by_cases hx : df.any (fun p => p.1 == c)
    · rw [if_pos hx]
      refine List.any_eq_true.mpr ⟨if q.1 == c then (q.1, cells) else q, ?_, ?_⟩
      · exact List.mem_map.mpr ⟨q, hqmem, rfl⟩
      · by_cases hqc : q.1 == c <;> simp [hqc] <;> simpa using hq
    · rw [if_neg hx]
      exact List.any_eq_true.mpr ⟨q, List.mem_append_left _ hqmem, hq⟩

/-- Number of occurrences of a value in a list. -/
def countOcc {α : Type} [BEq α] (l : List α) (v : α) : Nat :=
  (l.filter (fun w => w == v)).length

theorem countOcc_nil {α : Type} [BEq α] (v : α) : countOcc [] v = 0 := rfl

theorem countOcc_append {α : Type} [BEq α] (l1 l2 : List α) (v : α) :
    countOcc (l1 ++ l2) v = countOcc l1 v + countOcc l2 v := by
  simp [countOcc, List.filter_append]

theorem countOcc_eq_zero {α : Type} [BEq α] [LawfulBEq α] (l : List α) (v : α)
    (h : v ∉ l) : countOcc l v = 0 := by
  unfold countOcc
  rw [List.length_eq_zero, List.filter_eq_nil_iff]
  intro a ha
  simp only [beq_iff_eq]
  intro hc
  exact h (hc ▸ ha)

theorem countOcc_eq_ite {α : Type} [BEq α] [LawfulBEq α] (l : List α) (v : α)
    (h : l.Nodup) : countOcc l v = if v ∈ l then 1 else 0 := by
  induction l with
  | nil => simp [countOcc]
  | cons x xs ih =>
    have hx : x ∉ xs := (List.nodup_cons.mp h).1
    have ih' := ih (List.nodup_cons.mp h).2
    by_cases hv : v = x
    · subst hv
      have h0 : countOcc xs v = 0 := countOcc_eq_zero xs v hx
      unfold countOcc at h0 ⊢
      simp [List.filter_cons, h0]
    · unfold countOcc
      rw [List.filter_cons]
      have hxv : ((x == v) : Bool) = false := beq_eq_false_iff_ne.mpr (Ne.symm hv)
      simp only [hxv, Bool.false_eq_true, if_false]
      show countOcc xs v = _
      rw [ih']
      simp [List.mem_cons, hv]

theorem dedupGo_mem (l : List String) :
    ∀ acc v, v ∈ dedupGo acc l ↔ v ∈ acc ∨ v ∈ l := by
  induction l with
  | nil => intro acc v; simp [dedupGo]
  | cons x xs ih =>
    intro acc v
    unfold dedupGo
    by_cases hx : acc.any (fun w => w == x)
    · rw [if_pos hx, ih]
      have hxacc : x ∈ acc := by
        obtain ⟨w, hw, hwx⟩ := List.any_eq_true.mp hx
        have : w = x := by simpa using hwx
        exact this ▸ hw
      constructor
      · rintro (h | h)
        · exact Or.inl h
        · exact Or.inr (List.mem_cons_of_mem x h)
      · rintro (h | h)
        · exact Or.inl h
        · rcases List.mem_cons.mp h with rfl | h2
          · exact Or.inl hxacc
          · exact Or.inr h2
    · rw [if_neg hx, ih]
      simp only [List.mem_append, List.mem_singleton, List.mem_cons]
      tauto

theorem dedupGo_nodup (l : List String) :
    ∀ acc, acc.Nodup → (dedupGo acc l).Nodup := by
  induction l with
  | nil => intro acc h; simpa [dedupGo] using h
  | cons x xs ih =>
    intro acc hacc
    unfold dedupGo
    by_cases hx : acc.any (fun w => w == x)
    · rw [if_pos hx]
      exact ih acc hacc
    · rw [if_neg hx]
      refine ih (acc ++ [x]) ?_
      have hxa : x ∉ acc := by
        intro hc
        exact hx (List.any_eq_true.mpr ⟨x, hc, by simp⟩)
      exact List.Nodup.append hacc (List.nodup_singleton x) (by simpa using hxa)

theorem dedupFirst_mem (l : List String) (v : String) : v ∈ dedupFirst l ↔ v ∈ l := by
  rw [dedupFirst, dedupGo_mem]
  simp

theorem dedupFirst_nodup (l : List String) : (dedupFirst l).Nodup :=
  dedupGo_nodup l [] List.nodup_nil

theorem countOcc_map_classify (c : String) (l : List String) (v : String) :
    countOcc (l.map (fun w => Event.classify c w)) (Event.classify c v) = countOcc l v := by
  unfold countOcc
  rw [List.filter_map, List.length_map]
  congr 1
  apply List.filter_congr
  intro w _
  by_cases hw : w = v
  · subst hw; simp
  · simp [Function.comp, hw]

theorem processVal_foldl_events (d : Detector) (a : Bool) (t : ℚ) (c : String)
    (uniques : List String) :
    ∀ acc : ColAcc, (uniques.foldl (processVal d a t c) acc).events
      = acc.events ++ uniques.map (fun v => Event.classify c v) := by
  induction uniques with
  | nil => intro acc; simp
  | cons x xs ih =>
    intro acc
    rw [List.foldl_cons, ih]
    rw [show (processVal d a t c acc x).events = acc.events ++ [Event.classify c x] from rfl]
    simp

theorem processColumn_events (d : Detector) (a : Bool) (t : ℚ)
    (acc : Frame × DetState × List Event) (c : String) :
    (processColumn d a t acc c).2.2
      = acc.2.2 ++ (dedupFirst (getCol acc.1 c)).map (fun v => Event.classify c v) := by
  show acc.2.2 ++ ((dedupFirst (getCol acc.1 c)).foldl (processVal d a t c)
    ⟨[], acc.2.1, []⟩).events = _
  rw [processVal_foldl_events]
  rfl

theorem processColumn_frame (d : Detector) (a : Bool) (t : ℚ)
    (acc : Frame × DetState × List Event) (c : String) :
    (processColumn d a t acc c).1 = setCol acc.1 (c ++ "_lang")
      ((getCol acc.1 c).map (fun v =>
        (cacheGet ((dedupFirst (getCol acc.1 c)).foldl (processVal d a t c)
          ⟨[], acc.2.1, []⟩).langMap v).getD "")) := rfl

theorem foldl_processColumn_getCol (d : Detector) (a : Bool) (t : ℚ) (cols : List String) :
    ∀ (acc : Frame × DetState × List Event) (name : String),
      (∀ c ∈ cols, name ≠ c ++ "_lang") →
      getCol (cols.foldl (processColumn d a t) acc).1 name = getCol acc.1 name := by
  induction cols with
  | nil => intro acc name _; rfl
  | cons c0 rest ih =>
    intro acc name h
    rw [List.foldl_cons, ih _ name (fun c hc => h c (by simp [hc])), processColumn_frame]
    exact getCol_setCol_ne _ _ _ _ (h c0 (by simp))

theorem foldl_processColumn_hasCol (d : Detector) (a : Bool) (t : ℚ) (cols : List String) :
    ∀ (acc : Frame × DetState × List Event) (name : String),
      hasCol acc.1 name = true →
      hasCol (cols.foldl (processColumn d a t) acc).1 name = true := by
  induction cols with
  | nil => intro acc name h; exact h
  | cons c0 rest ih =>
    intro acc name h
    rw [List.foldl_cons]
    refine ih _ name ?_
    rw [processColumn_frame]
    exact hasCol_setCol_mono _ _ _ _ h

theorem foldl_processColumn_hasCol_target (d : Detector) (a : Bool) (t : ℚ) (cols : List String) :
    ∀ (acc : Frame × DetState × List Event) (c : String), c ∈ cols →
      hasCol (cols.foldl (processColumn d a t) acc).1 (c ++ "_lang") = true := by
  induction cols with
  | nil => intro acc c hc; cases hc
  | cons c0 rest ih =>
    intro acc c hc
    rw [List.foldl_cons]
    rcases List.mem_cons.mp hc with rfl | hcr
    · refine foldl_processColumn_hasCol d a t rest _ _ ?_
      rw [processColumn_frame]
      exact hasCol_setCol_self _ _ _
    · exact ih _ c hcr

theorem foldl_processColumn_count_other (d : Detector) (a : Bool) (t : ℚ) (cols : List String)
    (c v : String) (hc : c ∉ cols) :
    ∀ acc : Frame × DetState × List Event,
      countOcc (cols.foldl (processColumn d a t) acc).2.2 (Event.classify c v)
        = countOcc acc.2.2 (Event.classify c v) := by
  induction cols with
  | nil => intro acc; rfl
  | cons c0 rest ih =>
    intro acc
    rw [List.foldl_cons, ih (fun h => hc (by simp [h]))]
    rw [processColumn_events, countOcc_append]
    have h0 : countOcc ((dedupFirst (getCol acc.1 c0)).map (fun w => Event.classify c0 w))
        (Event.classify c v) = 0 := by
      refine countOcc_eq_zero _ _ ?_
      intro hmem
      obtain ⟨w, _, hw⟩ := List.mem_map.mp hmem
      have hcc : c0 = c := by injection hw
      exact hc (by simp [hcc.symm])
    omega

theorem foldl_processColumn_no_writes (d : Detector) (a : Bool) (t : ℚ) (cols : List String) :
    ∀ acc : Frame × DetState × List Event,
      (∀ e ∈ acc.2.2, e.isWrite = false) →
      ∀ e ∈ (cols.foldl (processColumn d a t) acc).2.2, e.isWrite = false := by
  induction cols with
  | nil => intro acc h; exact h
  | cons c0 rest ih =>
    intro acc h
    rw [List.foldl_cons]
    refine ih _ ?_
    rw [processColumn_events]
    intro e he
    rcases List.mem_append.mp he with he1 | he2
    · exact h e he1
    · obtain ⟨w, _, hw⟩ := List.mem_map.mp he2
      rw [← hw]
      rfl

theorem append_suffix_inj (a b s : String) (h : a ++ s = b ++ s) : a = b := by
  have hd : a.data ++ s.data = b.data ++ s.data := by
    rw [← String.data_append, ← String.data_append, h]
  have hab : a.data = b.data := List.append_cancel_right hd
  cases a
  cases b
  exact congrArg String.mk hab

/-- Invariant of the column fold of `annotate_frame`: for every
requested column `c` (under the hygiene assumptions that requested
columns are distinct and none is a `_lang` output of another), the
output column is a pointwise image of the input cells, and each distinct
cell value of `c` produces exactly one classifier invocation. -/
theorem annotate_master (d : Detector) (a : Bool) (t : ℚ) (cols : List String) :
    ∀ acc : Frame × DetState × List Event,
      cols.Nodup → (∀ c1 ∈ cols, ∀ c2 ∈ cols, c1 ≠ c2 ++ "_lang") →
      ∀ c ∈ cols,
        (∃ f : String → String,
          getCol (cols.foldl (processColumn d a t) acc).1 (c ++ "_lang")
            = (getCol acc.1 c).map f) ∧
        (∀ v, countOcc (cols.foldl (processColumn d a t) acc).2.2 (Event.classify c v)
            = countOcc acc.2.2 (Event.classify c v)
              + (if v ∈ getCol acc.1 c then 1 else 0)) := by
  induction cols with
  | nil => intro acc _ _ c hc; cases hc
  | cons c0 rest ih =>
    intro acc hnodup hhyg c hc
    have hn := List.nodup_cons.mp hnodup
    rw [List.foldl_cons]
    rcases List.mem_cons.mp hc with rfl | hcr
    · constructor
      · rw [foldl_processColumn_getCol d a t rest _ (c ++ "_lang") ?pres]
        case pres =>
          intro c2 hc2 heq
          have hcc : c = c2 := append_suffix_inj c c2 "_lang" heq
          exact hn.1 (hcc ▸ hc2)
        rw [processColumn_frame, getCol_setCol_self]
        exact ⟨_, rfl⟩
      · intro v
        rw [foldl_processColumn_count_other d a t rest c v hn.1]
        rw [processColumn_events, countOcc_append, countOcc_map_classify]
        rw [countOcc_eq_ite _ v (dedupFirst_nodup _)]
        rw [if_congr (dedupFirst_mem (getCol acc.1 c) v) rfl rfl]
    · have ih' := ih (processColumn d a t acc c0) hn.2
        (fun c1 h1 c2 h2 => hhyg c1 (by simp [h1]) c2 (by simp [h2])) c hcr
      have hpres : getCol (processColumn d a t acc c0).1 c = getCol acc.1 c := by
        rw [processColumn_frame]
        exact getCol_setCol_ne _ _ _ _ (hhyg c (by simp [hcr]) c0 (by simp))
      constructor
      · obtain ⟨f, hf⟩ := ih'.1
        exact ⟨f, by rw [hf, hpres]⟩
      · intro v
        rw [ih'.2 v, hpres]
        have hc0c : c ≠ c0 := by
          intro hcc
          exact hn.1 (hcc ▸ hcr)
        rw [processColumn_events, countOcc_append]
        have h0 : countOcc ((dedupFirst (getCol acc.1 c0)).map (fun w => Event.classify c0 w))
            (Event.classify c v) = 0 := by
          refine countOcc_eq_zero _ _ ?_
          intro hmem
          obtain ⟨w, _, hw⟩ := List.mem_map.mp hmem
          have : c0 = c := by injection hw
          exact hc0c this.symm
        omega

theorem annotate_frame_frame (d : Detector) (df : Frame) (cols : List String)
    (a : Bool) (t : ℚ) (st : DetState) :
    (annotate_frame d df cols a t st).1
      = (cols.foldl (processColumn d a t) (df, st, [])).1 := by
  cases a <;> rfl

theorem annotate_frame_trace (d : Detector) (df : Frame) (cols : List String)
    (a : Bool) (t : ℚ) (st : DetState) :
    ∃ extra, (annotate_frame d df cols a t st).2.2
        = (cols.foldl (processColumn d a t) (df, st, [])).2.2 ++ extra ∧
      (∀ e ∈ extra, e.isWrite = true) ∧ extra.length ≤ 1 := by
  cases a with
  | false => exact ⟨[], by simp [annotate_frame], by simp, by simp⟩
  | true =>
    refine ⟨(flushCache d (cols.foldl (processColumn d true t) (df, st, [])).2.1).2, rfl, ?_, ?_⟩
    · intro e he
      unfold flushCache at he
      by_cases hcond : ((cols.foldl (processColumn d true t) (df, st, [])).2.1.dirty
          && fileTruthy d.cache_file) = true
      · rw [if_pos hcond] at he
        simp only [List.mem_singleton] at he
        rw [he]
        rfl
      · rw [if_neg hcond] at he
        cases he
    · unfold flushCache
      by_cases hcond : ((cols.foldl (processColumn d true t) (df, st, [])).2.1.dirty
          && fileTruthy d.cache_file) = true
      · rw [if_pos hcond]; simp
      · rw [if_neg hcond]; simp

/-- C9: for every requested column (columns distinct, present in the
frame, and not named like a generated `_lang` output), `annotate_frame`
produces an output column that is a pointwise image of the input column
— same length, same order, equal cells getting equal labels — and
invokes the classifier exactly once per distinct cell value. -/
theorem annotate_frame_per_column (d : Detector) (df : Frame) (cols : List String)
    (a : Bool) (t : ℚ) (st : DetState)
    (hnd : cols.Nodup) (_hex : ∀ c ∈ cols, hasCol df c = true)
    (hhyg : ∀ c1 ∈ cols, ∀ c2 ∈ cols, c1 ≠ c2 ++ "_lang") :
    ∀ c ∈ cols,
      (∃ f : String → String,
        getCol (annotate_frame d df cols a t st).1 (c ++ "_lang") = (getCol df c).map f) ∧
      (∀ v, countOcc (annotate_frame d df cols a t st).2.2 (Event.classify c v)
          = if v ∈ getCol df c then 1 else 0) := by
  intro c hc
  have hm := annotate_master d a t cols (df, st, []) hnd hhyg c hc
  constructor
  · obtain ⟨f, hf⟩ := hm.1
    exact ⟨f, by rw [annotate_frame_frame, hf]⟩
  · intro v
    obtain ⟨extra, htr, hw, _⟩ := annotate_frame_trace d df cols a t st
    rw [htr, countOcc_append, hm.2 v]
    have h0 : countOcc extra (Event.classify c v) = 0 := by
      refine countOcc_eq_zero _ _ ?_
      intro hmem
      have := hw _ hmem
      simp [Event.isWrite] at this
    rw [h0]
    simp [countOcc_nil]

/-- C9 witness: a one-column frame with a repeated value; the theorem's
conclusion is obtained at this concrete input. -/
theorem annotate_frame_per_column_witness :
    (["name"].Nodup ∧ hasCol [("name", ["a", "b", "a"])] "name" = true) ∧
    ((∃ f : String → String,
        getCol (annotate_frame ⟨6, "en", none⟩ [("name", ["a", "b", "a"])] ["name"]
          false 0 ⟨[], false⟩).1 ("name" ++ "_lang")
          = (getCol [("name", ["a", "b", "a"])] "name").map f) ∧
      (∀ v, countOcc (annotate_frame ⟨6, "en", none⟩ [("name", ["a", "b", "a"])] ["name"]
          false 0 ⟨[], false⟩).2.2 (Event.classify "name" v)
          = if v ∈ getCol [("name", ["a", "b", "a"])] "name" then 1 else 0)) :=
  ⟨⟨by decide, by decide⟩,
   annotate_frame_per_column ⟨6, "en", none⟩ [("name", ["a", "b", "a"])] ["name"]
     false 0 ⟨[], false⟩ (by decide) (by decide) (by decide) "name" (by decide)⟩

/-- C10: `annotate_frame` returns the input frame transformed in place:
every requested column `c` gains (or has overwritten) a column `c_lang`,
and every column not named like a generated `_lang` output keeps its
cells unchanged. -/
theorem annotate_frame_effect (d : Detector) (df : Frame) (cols : List String)
    (a : Bool) (t : ℚ) (st : DetState)
    (_hex : ∀ c ∈ cols, hasCol df c = true) :
    (∀ name, name ∉ cols.map (fun c => c ++ "_lang") →
      getCol (annotate_frame d df cols a t st).1 name = getCol df name) ∧
    (∀ c ∈ cols, hasCol (annotate_frame d df cols a t st).1 (c ++ "_lang") = true) := by
  constructor
  · intro name hname
    rw [annotate_frame_frame]
    refine foldl_processColumn_getCol d a t cols _ name ?_
    intro c hc heq
    exact hname (heq ▸ List.mem_map_of_mem (fun c => c ++ "_lang") hc)
  · intro c hc
    rw [annotate_frame_frame]
    exact foldl_processColumn_hasCol_target d a t cols _ c hc

/-- C10 witness: on a two-column frame with one requested column, the
other column's cells are untouched and the `_lang` column exists. -/
theorem annotate_frame_effect_witness :
    (hasCol [("name", ["a"]), ("age", ["7"])] "name" = true) ∧
    getCol (annotate_frame ⟨6, "en", none⟩ [("name", ["a"]), ("age", ["7"])] ["name"]
      false 0 ⟨[], false⟩).1 "age" = getCol [("name", ["a"]), ("age", ["7"])] "age" ∧
    hasCol (annotate_frame ⟨6, "en", none⟩ [("name", ["a"]), ("age", ["7"])] ["name"]
      false 0 ⟨[], false⟩).1 ("name" ++ "_lang") = true :=
  ⟨by decide,
   (annotate_frame_effect ⟨6, "en", none⟩ [("name", ["a"]), ("age", ["7"])] ["name"]
     false 0 ⟨[], false⟩ (by decide)).1 "age" (by decide),
   (annotate_frame_effect ⟨6, "en", none⟩ [("name", ["a"]), ("age", ["7"])] ["name"]
     false 0 ⟨[], false⟩ (by decide)).2 "name" (by decide)⟩

/-- C7: with auto-cache enabled, one `annotate_frame` call writes the
persisted snapshot at most once, and any write comes after the whole
column phase: the event trace decomposes into a write-free prefix
(the classifier invocations of all requested columns) followed by at
most one write event. -/
theorem annotate_frame_flush_once (d : Detector) (df : Frame) (cols : List String)
    (t : ℚ) (st : DetState) (_hex : ∀ c ∈ cols, hasCol df c = true) :
    ∃ pre post, (annotate_frame d df cols true t st).2.2 = pre ++ post ∧
      (∀ e ∈ pre, e.isWrite = false) ∧
      (∀ e ∈ post, e.isWrite = true) ∧ post.length ≤ 1 := by
  obtain ⟨extra, htr, hw, hlen⟩ := annotate_frame_trace d df cols true t st
  refine ⟨(cols.foldl (processColumn d true t) (df, st, [])).2.2, extra, htr, ?_, hw, hlen⟩
  exact foldl_processColumn_no_writes d true t cols (df, st, []) (by intro e he; cases he)

/-- C7 witness: a concrete auto-cached call on a frame with duplicate
values, where the theorem yields the write-free/write decomposition. -/
theorem annotate_frame_flush_once_witness :
    (hasCol [("name", ["a", "a", "b"])] "name" = true) ∧
    (∃ pre post,
      (annotate_frame ⟨6, "en", some "cache.json"⟩ [("name", ["a", "a", "b"])] ["name"]
        true (95 / 100) ⟨[], false⟩).2.2 = pre ++ post ∧
      (∀ e ∈ pre, e.isWrite = false) ∧
      (∀ e ∈ post, e.isWrite = true) ∧ post.length ≤ 1) :=
  ⟨by decide,
   annotate_frame_flush_once ⟨6, "en", some "cache.json"⟩ [("name", ["a", "a", "b"])]
     ["name"] (95 / 100) ⟨[], false⟩ (by decide)⟩

theorem getD_append_lt {α : Type} (l1 l2 : List α) (i : Nat) (dflt : α)
    (h : i < l1.length) : (l1 ++ l2).getD i dflt = l1.getD i dflt := by
  rw [List.getD_eq_getElem?_getD, List.getD_eq_getElem?_getD, List.getElem?_append_left h]

theorem getD_concat_self {α : Type} (l : List α) (x dflt : α) :
    (l ++ [x]).getD l.length dflt = x := by
  rw [List.getD_eq_getElem?_getD, List.getElem?_concat_length]
  rfl

theorem foldl_applyOp_wrote_length (d : Detector) (ops : List CacheOp) :
    ∀ s : DetState × List Bool, (ops.foldl (applyOp d) s).2.length = s.2.length + ops.length := by
  induction ops with
  | nil => intro s; simp
  | cons op rest ih =>
    intro s
    rw [List.foldl_cons, ih]
    have h1 : (applyOp d s op).2.length = s.2.length + 1 := by
      cases op with
      | ins k v => simp [applyOp]
      | flush => simp [applyOp]
    rw [h1, List.length_cons]
    omega

theorem runOps_wrote_length (d : Detector) (c0 : List (String × String)) (ops : List CacheOp) :
    (runOps d c0 ops).2.length = ops.length := by
  unfold runOps
  rw [foldl_applyOp_wrote_length]
  simp

theorem runOps_append_op (d : Detector) (c0 : List (String × String)) (l : List CacheOp)
    (op : CacheOp) : runOps d c0 (l ++ [op]) = applyOp d (runOps d c0 l) op := by
  unfold runOps
  rw [List.foldl_append]
  rfl

/-- The history characterization of the dirty flag: after running any
operation sequence from the freshly constructed state, `_dirty` is set
exactly when some insert has no later snapshot-writing flush.  The
per-operation `wrote` record marks exactly the flushes that performed a
write. -/
theorem runOps_dirty_iff (d : Detector) (c0 : List (String × String)) (ops : List CacheOp) :
    ((runOps d c0 ops).1.dirty = true) ↔
      ∃ i, i < ops.length ∧ (ops.getD i .flush).isIns = true ∧
        ∀ j, i < j → j < ops.length → (runOps d c0 ops).2.getD j true = false := by
  induction ops using List.reverseRecOn with
  | nil =>
    constructor
    · intro h
      exact absurd h (by simp [runOps])
    · rintro ⟨i, hi, _⟩
      simp at hi
  | append_singleton l op ih =>
    have hwl : (runOps d c0 l).2.length = l.length := runOps_wrote_length d c0 l
    rw [runOps_append_op]
    cases op with
    | ins k v =>
      constructor
      · intro _
        refine ⟨l.length, by simp, ?_, ?_⟩
        · rw [getD_concat_self]
          rfl
        · intro j hij hj
          simp at hj
          omega
      · intro _
        rfl
    | flush =>
      by_cases hcond : ((runOps d c0 l).1.dirty && fileTruthy d.cache_file) = true
      · have hflush : flushCache d (runOps d c0 l).1
            = ({ (runOps d c0 l).1 with dirty := false },
               [.writeSnapshot (runOps d c0 l).1.cache]) := by
          unfold flushCache
          rw [if_pos hcond]
        constructor
        · intro h
          rw [show (applyOp d (runOps d c0 l) .flush).1 = (flushCache d (runOps d c0 l).1).1
            from rfl, hflush] at h
          simp at h
        · rintro ⟨i, hi, hins, hall⟩
          exfalso
          simp only [List.length_append, List.length_singleton] at hi
          by_cases hie : i = l.length
          · subst hie
            rw [getD_concat_self] at hins
            simp [CacheOp.isIns] at hins
          · have hil : i < l.length := by omega
            have hwrote : (applyOp d (runOps d c0 l) .flush).2
                = (runOps d c0 l).2 ++ [true] := by
              show (runOps d c0 l).2 ++ [!(flushCache d (runOps d c0 l).1).2.isEmpty] = _
              rw [hflush]
              rfl
            have hfalse := hall l.length hil (by simp)
            rw [hwrote, ← hwl, getD_concat_self] at hfalse
            cases hfalse
      · have hflush : flushCache d (runOps d c0 l).1 = ((runOps d c0 l).1, []) := by
          unfold flushCache
          rw [if_neg hcond]
        have hwrote : (applyOp d (runOps d c0 l) .flush).2
            = (runOps d c0 l).2 ++ [false] := by
          show (runOps d c0 l).2 ++ [!(flushCache d (runOps d c0 l).1).2.isEmpty] = _
          rw [hflush]
          rfl
        have hdirty : (applyOp d (runOps d c0 l) .flush).1 = (runOps d c0 l).1 := by
          show (flushCache d (runOps d c0 l).1).1 = _
          rw [hflush]
        rw [hdirty, ih]
        constructor
        · rintro ⟨i, hi, hins, hall⟩
          refine ⟨i, by simp; omega, ?_, ?_⟩
          · rw [getD_append_lt _ _ _ _ hi]
            exact hins
          · intro j hij hj
            simp only [List.length_append, List.length_singleton] at hj
            rw [hwrote]
            by_cases hje : j = l.length
            · subst hje
              rw [← hwl, getD_concat_self]
            · have hjl : j < l.length := by omega
              rw [getD_append_lt _ _ _ _ (by omega : j < (runOps d c0 l).2.length)]
              exact hall j hij hjl
        · rintro ⟨i, hi, hins, hall⟩
          simp only [List.length_append, List.length_singleton] at hi
          by_cases hie : i = l.length
          · subst hie
            rw [getD_concat_self] at hins
            simp [CacheOp.isIns] at hins
          · have hil : i < l.length := by omega
            refine ⟨i, hil, ?_, ?_⟩
            · rw [getD_append_lt _ _ _ _ hil] at hins
              exact hins
            · intro j hij hj
              have := hall j hij (by simp; omega)
              rw [hwrote, getD_append_lt _ _ _ _ (by omega : j < (runOps d c0 l).2.length)] at this
              exact this

/-- C8: the dirty-flag contract.  (1) After any insert/flush sequence
from construction, `_dirty` holds iff some insert is not followed by a
write-performing flush — "an insert occurred since the last successful
flush, or since load if never flushed".  (2) Every insert (including
re-insertion) sets `_dirty`.  (3) With a persistence target configured,
a flush always leaves `_dirty` clear.  (4) A flush with a clean state or
no persistence target is a no-op: state unchanged, nothing written. -/
theorem dirty_flag_contract (d : Detector) (c0 : List (String × String)) (ops : List CacheOp) :
    (((runOps d c0 ops).1.dirty = true) ↔
      ∃ i, i < ops.length ∧ (ops.getD i .flush).isIns = true ∧
        ∀ j, i < j → j < ops.length → (runOps d c0 ops).2.getD j true = false) ∧
    (∀ (st : DetState) (k v : String), (addToCache st k v).dirty = true) ∧
    (∀ st : DetState, fileTruthy d.cache_file = true → (flushCache d st).1.dirty = false) ∧
    (∀ st : DetState, st.dirty = false ∨ fileTruthy d.cache_file = false →
      flushCache d st = (st, [])) := by
  refine ⟨runOps_dirty_iff d c0 ops, fun st k v => rfl, ?_, ?_⟩
  · intro st hfile
    unfold flushCache
    by_cases hd : st.dirty
    · rw [if_pos (by rw [hd, hfile]; rfl)]
    · rw [if_neg (by rw [Bool.not_eq_true] at hd; rw [hd]; simp)]
      rw [Bool.not_eq_true] at hd
      exact hd
  · intro st h
    unfold flushCache
    rcases h with h | h
    · rw [if_neg (by rw [h]; simp)]
    · rw [if_neg (by rw [h]; simp)]

/-- C8 witness: a concrete run — insert, successful flush, insert —
ends dirty, and the history characterization, the flush-clears and the
no-op parts are instantiated concretely. -/
theorem dirty_flag_contract_witness :
    (∃ i, i < ([CacheOp.ins "a" "en", .flush, .ins "b" "hi"] : List CacheOp).length ∧
      (([CacheOp.ins "a" "en", .flush, .ins "b" "hi"] : List CacheOp).getD i .flush).isIns = true ∧
      ∀ j, i < j → j < ([CacheOp.ins "a" "en", .flush, .ins "b" "hi"] : List CacheOp).length →
        (runOps ⟨6, "en", some "lang_cache.json"⟩ []
          [CacheOp.ins "a" "en", .flush, .ins "b" "hi"]).2.getD j true = false) ∧
    (flushCache ⟨6, "en", some "lang_cache.json"⟩ ⟨[("a", "en")], true⟩).1.dirty = false ∧
    flushCache ⟨6, "en", none⟩ ⟨[("a", "en")], true⟩ = (⟨[("a", "en")], true⟩, []) :=
  ⟨(dirty_flag_contract ⟨6, "en", some "lang_cache.json"⟩ []
      [CacheOp.ins "a" "en", .flush, .ins "b" "hi"]).1.mp (by decide),
   (dirty_flag_contract ⟨6, "en", some "lang_cache.json"⟩ [] []).2.2.1
     ⟨[("a", "en")], true⟩ (by decide),
   (dirty_flag_contract ⟨6, "en", none⟩ [] []).2.2.2
     ⟨[("a", "en")], true⟩ (Or.inr (by decide))⟩

/-- Index of the first character of `cps` that resolves to language `a`
("`a`'s first resolved character"), if any. -/
def firstHit (cps : List Nat) (a : String) : Option Nat :=
  cps.findIdx? (fun cp => char_lang cp == some a)

/-- The prefix of the token's significant characters actually processed
by the scan loop of `detect` (`scanLoop_eq`: the loop stops after
`sample_chars` of them). -/
def scannedPrefix (N : Nat) (text : String) : List Nat :=
  (significant (strCps text)).take N

/-- The counter dictionary `detect` builds over the scanned prefix
(`scanLoop_eq`: this is the first component of the scan loop's result). -/
def scanTally (N : Nat) (text : String) : List (String × Nat) :=
  (scannedPrefix N text).foldl bumpStep []

/-- Invariant connecting the counter dictionary to the characters
scanned so far: every counted language has a first resolved character,
every language resolved by some scanned character is counted, and
counter entries appear in order of their language's first resolved
character — the formal content of "dict insertion order is
first-occurrence order". -/
def TallyInv (prev : List Nat) (counts : List (String × Nat)) : Prop :=
  (∀ p ∈ counts, ∃ i, firstHit prev p.1 = some i) ∧
  (∀ a : String, (∃ cp ∈ prev, char_lang cp = some a) → a ∈ counts.map Prod.fst) ∧
  (∀ ia ib (ha : ia < counts.length) (hb : ib < counts.length), ia < ib →
    ∃ i j, firstHit prev (counts.get ⟨ia, ha⟩).1 = some i ∧
      firstHit prev (counts.get ⟨ib, hb⟩).1 = some j ∧ i < j)

theorem firstHit_lt_length (prev : List Nat) (a : String) (i : Nat)
    (h : firstHit prev a = some i) : i < prev.length := by
  rw [firstHit, List.findIdx?_eq_some_iff_getElem] at h
  obtain ⟨hlen, _, _⟩ := h
  exact hlen

theorem firstHit_append_some (prev : List Nat) (cp : Nat) (a : String) (i : Nat)
    (h : firstHit prev a = some i) : firstHit (prev ++ [cp]) a = some i := by
  rw [firstHit, List.findIdx?_eq_some_iff_getElem] at h ⊢
  obtain ⟨hlen, hp, hprev⟩ := h
  refine ⟨by simp only [List.length_append, List.length_singleton]; omega, ?_, ?_⟩
  · rw [List.getElem_append_left hlen]
    exact hp
  · intro j hj
    rw [List.getElem_append_left (by omega : j < prev.length)]
    exact hprev j hj

theorem firstHit_eq_none_of (prev : List Nat) (a : String)
    (h : ∀ cp ∈ prev, char_lang cp ≠ some a) : firstHit prev a = none := by
  rw [firstHit, List.findIdx?_eq_none_iff]
  intro x hx
  exact beq_eq_false_iff_ne.mpr (h x hx)

theorem firstHit_append_none_hit (prev : List Nat) (cp : Nat) (a : String)
    (hn : firstHit prev a = none) (hcp : char_lang cp = some a) :
    firstHit (prev ++ [cp]) a = some prev.length := by
  rw [firstHit, List.findIdx?_eq_none_iff] at hn
  rw [firstHit, List.findIdx?_eq_some_iff_getElem]
  refine ⟨by simp, ?_, ?_⟩
  · rw [List.getElem_concat_length prev cp prev.length rfl]
    simp [hcp]
  · intro j hj
    rw [List.getElem_append_left hj]
    have := hn (prev.get ⟨j, hj⟩) (List.get_mem prev j hj)
    simpa using this

theorem any_key_iff (counts : List (String × Nat)) (lang : String) :
    counts.any (fun p => p.1 == lang) = true ↔ lang ∈ counts.map Prod.fst := by
  rw [List.any_eq_true]
  constructor
  · rintro ⟨p, hp, hpl⟩
    exact List.mem_map.mpr ⟨p, hp, by simpa using hpl⟩
  · intro hm
    obtain ⟨p, hp, hpl⟩ := List.mem_map.mp hm
    exact ⟨p, hp, by simp [hpl]⟩

theorem bump_present_fst (counts : List (String × Nat)) (lang : String)
    (h : counts.any (fun p => p.1 == lang) = true) :
    (bump counts lang).map Prod.fst = counts.map Prod.fst := by
  unfold bump
  rw [if_pos h, List.map_map]
  apply List.map_congr_left
  intro q _
  by_cases hq : q.1 == lang <;> simp [Function.comp, hq]

theorem bump_absent_eq (counts : List (String × Nat)) (lang : String)
    (h : ¬ counts.any (fun p => p.1 == lang) = true) :
    bump counts lang = counts ++ [(lang, 1)] := by
  unfold bump
  rw [if_neg h]

theorem get_fst_eq_of_map_fst_eq (l1 l2 : List (String × Nat))
    (h : l1.map Prod.fst = l2.map Prod.fst) (i : Nat)
    (h1 : i < l1.length) (h2 : i < l2.length) :
    (l1.get ⟨i, h1⟩).1 = (l2.get ⟨i, h2⟩).1 := by
  have hq : (l1.map Prod.fst)[i]? = (l2.map Prod.fst)[i]? := by rw [h]
  rw [List.getElem?_map, List.getElem?_map] at hq
  rw [List.getElem?_eq_getElem h1, List.getElem?_eq_getElem h2] at hq
  simpa using hq

theorem tallyInv_step (prev : List Nat) (counts : List (String × Nat)) (cp : Nat)
    (h : TallyInv prev counts) : TallyInv (prev ++ [cp]) (bumpStep counts cp) := by
  obtain ⟨h1, h2, h3⟩ := h
  cases hcl : char_lang cp with
  | none =>
    simp only [bumpStep, hcl]
    refine ⟨?_, ?_, ?_⟩
    · intro p hp
      obtain ⟨i, hi⟩ := h1 p hp
      exact ⟨i, firstHit_append_some prev cp p.1 i hi⟩
    · rintro a ⟨cp', hcp', hres⟩
      rcases List.mem_append.mp hcp' with hm | hm
      · exact h2 a ⟨cp', hm, hres⟩
      · simp only [List.mem_singleton] at hm
        subst hm
        rw [hcl] at hres
        cases hres
    · intro ia ib ha hb hlt
      obtain ⟨i, j, hi, hj, hij⟩ := h3 ia ib ha hb hlt
      exact ⟨i, j, firstHit_append_some _ _ _ _ hi, firstHit_append_some _ _ _ _ hj, hij⟩
  | some lang =>
    simp only [bumpStep, hcl]
    by_cases hpres : counts.any (fun p => p.1 == lang) = true
    · have hkeys := bump_present_fst counts lang hpres
      have hlen : (bump counts lang).length = counts.length := by
        have hc := congrArg List.length hkeys
        simpa using hc
      refine ⟨?_, ?_, ?_⟩
      · intro p hp
        have hpk : p.1 ∈ counts.map Prod.fst := by
          rw [← hkeys]
          exact List.mem_map_of_mem Prod.fst hp
        obtain ⟨q, hq, hq1⟩ := List.mem_map.mp hpk
        obtain ⟨i, hi⟩ := h1 q hq
        rw [← hq1]
        exact ⟨i, firstHit_append_some _ _ _ _ hi⟩
      · rintro a ⟨cp', hcp', hres⟩
        rw [hkeys]
        rcases List.mem_append.mp hcp' with hm | hm
        · exact h2 a ⟨cp', hm, hres⟩
        · simp only [List.mem_singleton] at hm
          subst hm
          rw [hcl] at hres
          injection hres with he
          subst he
          exact (any_key_iff counts lang).mp hpres
      · intro ia ib ha hb hlt
        have ha' : ia < counts.length := by omega
        have hb' : ib < counts.length := by omega
        obtain ⟨i, j, hi, hj, hij⟩ := h3 ia ib ha' hb' hlt
        rw [get_fst_eq_of_map_fst_eq _ _ hkeys ia ha ha',
          get_fst_eq_of_map_fst_eq _ _ hkeys ib hb hb']
        exact ⟨i, j, firstHit_append_some _ _ _ _ hi, firstHit_append_some _ _ _ _ hj, hij⟩
    · rw [bump_absent_eq counts lang hpres]
      have hnokey : lang ∉ counts.map Prod.fst := fun hc =>
        hpres ((any_key_iff counts lang).mpr hc)
      have hnone : firstHit prev lang = none := by
        refine firstHit_eq_none_of prev lang ?_
        intro cp' hcp' hres
        exact hnokey (h2 lang ⟨cp', hcp', hres⟩)
      have hnew : firstHit (prev ++ [cp]) lang = some prev.length :=
        firstHit_append_none_hit prev cp lang hnone hcl
      refine ⟨?_, ?_, ?_⟩
      · intro p hp
        rcases List.mem_append.mp hp with hm | hm
        · obtain ⟨i, hi⟩ := h1 p hm
          exact ⟨i, firstHit_append_some _ _ _ _ hi⟩
        · simp only [List.mem_singleton] at hm
          subst hm
          exact ⟨prev.length, hnew⟩
      · rintro a ⟨cp', hcp', hres⟩
        rw [List.map_append]
        rcases List.mem_append.mp hcp' with hm | hm
        · exact List.mem_append_left _ (h2 a ⟨cp', hm, hres⟩)
        · simp only [List.mem_singleton] at hm
          subst hm
          rw [hcl] at hres
          injection hres with he
          subst he
          exact List.mem_append_right _ (by simp)
      · intro ia ib ha hb hlt
        have hblen : ib < counts.length + 1 := by
          simpa using hb
        by_cases hbe : ib < counts.length
        · have hae : ia < counts.length := by omega
          obtain ⟨i, j, hi, hj, hij⟩ := h3 ia ib hae hbe hlt
          have e1 : (counts ++ [(lang, 1)]).get ⟨ia, ha⟩ = counts.get ⟨ia, hae⟩ := by
            rw [List.get_eq_getElem, List.get_eq_getElem, List.getElem_append_left hae]
          have e2 : (counts ++ [(lang, 1)]).get ⟨ib, hb⟩ = counts.get ⟨ib, hbe⟩ := by
            rw [List.get_eq_getElem, List.get_eq_getElem, List.getElem_append_left hbe]
          rw [e1, e2]
          exact ⟨i, j, firstHit_append_some _ _ _ _ hi, firstHit_append_some _ _ _ _ hj, hij⟩
        · have hbeq : ib = counts.length := by omega
          have hae : ia < counts.length := by omega
          obtain ⟨i0, hi0⟩ := h1 (counts.get ⟨ia, hae⟩) (List.get_mem counts ia hae)
          have hlt0 : i0 < prev.length := firstHit_lt_length _ _ _ hi0
          have e1 : (counts ++ [(lang, 1)]).get ⟨ia, ha⟩ = counts.get ⟨ia, hae⟩ := by
            rw [List.get_eq_getElem, List.get_eq_getElem, List.getElem_append_left hae]
          have e2 : (counts ++ [(lang, 1)]).get ⟨ib, hb⟩ = (lang, 1) := by
            rw [List.get_eq_getElem, List.getElem_concat_length counts (lang, 1) ib hbeq]
          rw [e1, e2]
          exact ⟨i0, prev.length, firstHit_append_some _ _ _ _ hi0, hnew, hlt0⟩

theorem tallyInv_foldl (l : List Nat) :
    ∀ prev counts, TallyInv prev counts → TallyInv (prev ++ l) (l.foldl bumpStep counts) := by
  induction l with
  | nil => intro prev counts h; simpa using h
  | cons cp rest ih =>
    intro prev counts h
    rw [List.foldl_cons, show prev ++ cp :: rest = (prev ++ [cp]) ++ rest by simp]
    exact ih (prev ++ [cp]) (bumpStep counts cp) (tallyInv_step prev counts cp h)

theorem tallyInv_scan (N : Nat) (text : String) :
    TallyInv (scannedPrefix N text) (scanTally N text) := by
  have h0 : TallyInv [] [] := by
    refine ⟨by simp, ?_, by intro ia ib ha hb hlt; simp at ha⟩
    rintro a ⟨cp, hcp, _⟩
    cases hcp
  have h := tallyInv_foldl (scannedPrefix N text) [] [] h0
  simpa [scanTally] using h

/-- Specification of Python's `max` fold: the result is an element of
the list attaining the maximal value, and every element strictly before
it has a strictly smaller value (the first maximum in iteration order
wins). -/
theorem foldl_maxStep_spec (rest : List (String × Nat)) :
    ∀ p : String × Nat,
      (∀ r ∈ p :: rest, r.2 ≤ (rest.foldl maxStep p).2) ∧
      ∃ iq, ∃ hq : iq < (p :: rest).length,
        (p :: rest).get ⟨iq, hq⟩ = rest.foldl maxStep p ∧
        ∀ j (hj : j < (p :: rest).length), j < iq →
          ((p :: rest).get ⟨j, hj⟩).2 < (rest.foldl maxStep p).2 := by
  induction rest with
  | nil =>
    intro p
    refine ⟨?_, 0, by simp, rfl, ?_⟩
    · intro r hr
      simp only [List.foldl_nil]
      simp only [List.mem_singleton] at hr
      subst hr
      exact le_refl _
    · intro j hj hj0
      omega
  | cons x xs ih =>
    intro p
    rw [List.foldl_cons]
    by_cases hpx : p.2 < x.2
    · have hms : maxStep p x = x := by simp [maxStep, hpx]
      rw [hms]
      obtain ⟨hmaxall, iq, hq, hget, hpre⟩ := ih x
      have hxq : x.2 ≤ (xs.foldl maxStep x).2 := hmaxall x (by simp)
      refine ⟨?_, iq + 1, by simp only [List.length_cons] at hq ⊢; omega, ?_, ?_⟩
      · intro r hr
        rcases List.mem_cons.mp hr with rfl | hr2
        · exact le_of_lt (lt_of_lt_of_le hpx hxq)
        · exact hmaxall r hr2
      · exact hget
      · intro j hj hjlt
        cases j with
        | zero => exact lt_of_lt_of_le hpx hxq
        | succ j2 =>
          have hj2 : j2 < (x :: xs).length := by
            simp only [List.length_cons] at hj ⊢
            omega
          exact hpre j2 hj2 (by omega)
    · have hms : maxStep p x = p := by simp [maxStep, hpx]
      rw [hms]
      obtain ⟨hmaxall, iq, hq, hget, hpre⟩ := ih p
      have hxle : x.2 ≤ p.2 := le_of_not_lt hpx
      have hple : p.2 ≤ (xs.foldl maxStep p).2 := hmaxall p (by simp)
      refine ⟨?_, ?_⟩
      · intro r hr
        rcases List.mem_cons.mp hr with rfl | hr2
        · exact hple
        · rcases List.mem_cons.mp hr2 with rfl | hr3
          · exact le_trans hxle hple
          · exact hmaxall r (by simp [hr3])
      · cases iq with
        | zero =>
          refine ⟨0, by simp, ?_, ?_⟩
          · exact hget
          · intro j hj hj0
            omega
        | succ k =>
          have hk : k < xs.length := by
            simp only [List.length_cons] at hq
            omega
          refine ⟨k + 2, by simp only [List.length_cons]; omega, ?_, ?_⟩
          · exact hget
          · intro j hj hjlt
            have hp0 : p.2 < (xs.foldl maxStep p).2 := by
              have := hpre 0 (by simp) (by omega)
              exact this
            cases j with
            | zero => exact hp0
            | succ j2 =>
              cases j2 with
              | zero => exact lt_of_le_of_lt hxle hp0
              | succ j3 =>
                have hj3 : j3 + 1 < (p :: xs).length := by
                  simp only [List.length_cons] at hj ⊢
                  omega
                exact hpre (j3 + 1) hj3 (by omega)

/-- Distinct positions in the tally hold distinct languages (their
first-hit indices differ). -/
theorem tally_key_unique (prev : List Nat) (counts : List (String × Nat))
    (hinv : TallyInv prev counts) :
    ∀ ia ib (ha : ia < counts.length) (hb : ib < counts.length),
      (counts.get ⟨ia, ha⟩).1 = (counts.get ⟨ib, hb⟩).1 → ia = ib := by
  intro ia ib ha hb hk
  rcases Nat.lt_trichotomy ia ib with h | h | h
  · obtain ⟨i, j, hi, hj, hij⟩ := hinv.2.2 ia ib ha hb h
    rw [hk] at hi
    rw [hi] at hj
    injection hj with he
    omega
  · exact h
  · obtain ⟨i, j, hi, hj, hij⟩ := hinv.2.2 ib ia hb ha h
    rw [hk] at hj
    rw [hi] at hj
    injection hj with he
    omega

theorem dictGet_of_mem_unique (w : String) (m : Nat) :
    ∀ counts : List (String × Nat), (w, m) ∈ counts →
      (∀ p ∈ counts, p.1 = w → p = (w, m)) → dictGet counts w = m := by
  intro counts
  induction counts with
  | nil => intro hm _; cases hm
  | cons q rest ih =>
    intro hm huniq
    by_cases hqw : q.1 = w
    · have hq : q = (w, m) := huniq q (by simp) hqw
      subst hq
      unfold dictGet
      rw [List.find?_cons_of_pos _ (by simp)]
      rfl
    · unfold dictGet
      rw [List.find?_cons_of_neg _ (by simp [hqw])]
      have hm2 : (w, m) ∈ rest := by
        rcases List.mem_cons.mp hm with he | hr
        · exact absurd (congrArg Prod.fst he.symm) hqw
        · exact hr
      exact ih hm2 (fun p hp hpw => huniq p (by simp [hp]) hpw)

/-- C1 (amended): ties at the maximal counter value are broken by
counter-insertion order, which is the order of each language's first
resolved character in the scanned prefix: for every non-empty,
non-cached token and every language `w` that attains the maximal
counter value and whose first resolved character occurs strictly
earlier in the scanned prefix than that of every other language
attaining the maximum, `detect` returns `w`, with score the maximal
count over the number of scanned characters.  (In particular, for a
token whose six significant characters are three of one language
followed by three of another, the first language wins with score
`0.5` — see the witness.) -/
theorem detect_tie_insertion_order (d : Detector) (cache : List (String × String))
    (text w : String) (m : Nat)
    (h1 : text ≠ "") (h2 : cacheGet cache text = none) (hN : 0 < d.sample_chars)
    (hmem : (w, m) ∈ scanTally d.sample_chars text)
    (hmax : ∀ p ∈ scanTally d.sample_chars text, p.2 ≤ m)
    (hfirst : ∀ p ∈ scanTally d.sample_chars text, p.2 = m → p.1 ≠ w →
      ∃ i j, firstHit (scannedPrefix d.sample_chars text) w = some i ∧
        firstHit (scannedPrefix d.sample_chars text) p.1 = some j ∧ i < j) :
    detect d cache text = (w, (m : ℚ) /
      ((min d.sample_chars (significant (strCps text)).length : Nat) : ℚ)) := by
  have hs : scanLoop d.sample_chars (significant (strCps text)) [] 0
      = (scanTally d.sample_chars text,
         min d.sample_chars (significant (strCps text)).length) := by
    rw [scanLoop_eq _ _ [] 0 hN]
    simp [scanTally, scannedPrefix]
  have hinv := tallyInv_scan d.sample_chars text
  have hpw : pickWinner (scanTally d.sample_chars text) = some (w, m) := by
    cases htl : scanTally d.sample_chars text with
    | nil => rw [htl] at hmem; cases hmem
    | cons p0 rest =>
      rw [htl] at hmem hmax hfirst hinv
      obtain ⟨hmaxall, iq, hiq, hget, hpre⟩ := foldl_maxStep_spec rest p0
      have hqmem : rest.foldl maxStep p0 ∈ p0 :: rest := by
        rw [← hget]
        exact List.get_mem _ _ _
      have hq2 : (rest.foldl maxStep p0).2 = m :=
        le_antisymm (hmax _ hqmem) (hmaxall (w, m) hmem)
      have hq1 : (rest.foldl maxStep p0).1 = w := by
        by_contra hne
        obtain ⟨i, j, hfw, hfq, hij⟩ := hfirst _ hqmem hq2 hne
        obtain ⟨⟨iw, hiwlt⟩, hgw⟩ := List.get_of_mem hmem
        rcases Nat.lt_trichotomy iw iq with hlt | heq | hgt
        · have hcontra := hpre iw hiwlt hlt
          rw [hgw, hq2] at hcontra
          exact absurd hcontra (lt_irrefl m)
        · have hqwm : rest.foldl maxStep p0 = (w, m) := by
            subst heq
            rw [← hget]
            exact hgw
          exact hne (by rw [hqwm])
        · obtain ⟨i2, j2, hfa, hfb, hij2⟩ := hinv.2.2 iq iw hiq hiwlt hgt
          rw [hget] at hfa
          rw [hgw] at hfb
          have hfb2 : firstHit (scannedPrefix d.sample_chars text) w = some j2 := hfb
          have e1 : i2 = j := Option.some.inj (hfa.symm.trans hfq)
          have e2 : j2 = i := Option.some.inj (hfb2.symm.trans hfw)
          omega
      have hqwm : rest.foldl maxStep p0 = (w, m) := by
        rw [← hq1, ← hq2]
      show pickWinner (p0 :: rest) = some (w, m)
      rw [show pickWinner (p0 :: rest) = some (rest.foldl maxStep p0) from rfl, hqwm]
  have hdg : dictGet (scanTally d.sample_chars text) w = m := by
    refine dictGet_of_mem_unique w m _ hmem ?_
    intro p hp hpw2
    obtain ⟨⟨ip, hip⟩, hgp⟩ := List.get_of_mem hp
    obtain ⟨⟨iw2, hiw2⟩, hgw2⟩ := List.get_of_mem hmem
    have hkey : ((scanTally d.sample_chars text).get ⟨ip, hip⟩).1
        = ((scanTally d.sample_chars text).get ⟨iw2, hiw2⟩).1 := by
      rw [hgp, hgw2]
      exact hpw2
    have hipw := tally_key_unique _ _ (tallyInv_scan d.sample_chars text) ip iw2 hip hiw2 hkey
    rw [← hgp, ← hgw2]
    subst hipw
    rfl
  rw [detect_scan d cache text h1 h2]
  refine detectScan_eval d.sample_chars d.default_code text (scanTally d.sample_chars text)
    (min d.sample_chars (significant (strCps text)).length) (w, m) _ hs hpw ?_
  rw [show ((w, m) : String × Nat).1 = w from rfl, hdg]

/-- C1 witness: for `"abcकखग"` (3 ASCII then 3 Devanagari significant
characters, tied 3–3) the general insertion-order tie-break applies
concretely: `"en"` is first-counted (first hit at index 0, `"hi"` only
at index 3) and wins with score `0.5`. -/
theorem detect_tie_insertion_order_witness :
    (("en", 3) ∈ scanTally 6 "abcकखग" ∧ ("hi", 3) ∈ scanTally 6 "abcकखग" ∧
      firstHit (scannedPrefix 6 "abcकखग") "en" = some 0 ∧
      firstHit (scannedPrefix 6 "abcकखग") "hi" = some 3) ∧
    detect ⟨6, "en", none⟩ [] "abcकखग" = ("en", 1 / 2) := by
  constructor
  · exact ⟨by decide, by decide, by decide, by decide⟩
  · have hf : ∀ p ∈ scanTally (⟨6, "en", none⟩ : Detector).sample_chars "abcकखग",
        p.2 = 3 → p.1 ≠ "en" →
        ∃ i j, firstHit (scannedPrefix (⟨6, "en", none⟩ : Detector).sample_chars "abcकखग")
            "en" = some i ∧
          firstHit (scannedPrefix (⟨6, "en", none⟩ : Detector).sample_chars "abcकखग")
            p.1 = some j ∧ i < j := by
      intro p hp hpm hpne
      have htal : scanTally (⟨6, "en", none⟩ : Detector).sample_chars "abcकखग"
          = [("en", 3), ("hi", 3)] := by decide
      rw [htal] at hp
      rcases List.mem_cons.mp hp with rfl | hp2
      · exact absurd rfl hpne
      · rcases List.mem_cons.mp hp2 with rfl | hp3
        · exact ⟨0, 3, by decide, by decide, by decide⟩
        · cases hp3
    have h := detect_tie_insertion_order ⟨6, "en", none⟩ [] "abcकखग" "en" 3
      (by decide) (by decide) (by decide) (by decide) (by decide) hf
    rw [h]
    rw [show (min (⟨6, "en", none⟩ : Detector).sample_chars
      (significant (strCps "abcकखग")).length : Nat) = 6 from by decide]
    norm_num

end ScriptDetect
